import Mathlib

/-!
Shallow embedding of src/kernel_list.h (an extraction of the Linux kernel
intrusive circular doubly-linked list) and proofs about its operations.

The heap is a total map from node identifiers (natural numbers) to
list_head cells; a pointer is either NULL or the address of a node.
Each C function is translated with the exact sequence of pointer reads
and writes of the source; a dereference of NULL makes the operation
return none.
-/

namespace KernelList

/-- Pointer values: the C NULL pointer, or the address of a list_head cell
identified by a natural number. -/
inductive Ptr where
  | null : Ptr
  | node : Nat → Ptr
  deriving DecidableEq

/-- The struct list_head of the source (lines 60-64): a next and a prev pointer. -/
structure ListHead where
  next : Ptr
  prev : Ptr
  deriving DecidableEq

/-- The mutable store: one list_head cell per node identifier. -/
abbrev Heap := Nat → ListHead

/-- Point update of the heap. -/
def hupd (h : Heap) (i : Nat) (c : ListHead) : Heap :=
  fun j => if j = i then c else h j

/-- Write the next field of cell i. -/
def wNext (h : Heap) (i : Nat) (v : Ptr) : Heap :=
  hupd h i { h i with next := v }

/-- Write the prev field of cell i. -/
def wPrev (h : Heap) (i : Nat) (v : Ptr) : Heap :=
  hupd h i { h i with prev := v }

/-- Read p->next; fails on NULL. -/
def ptrNext (h : Heap) : Ptr → Option Ptr
  | Ptr.null => none
  | Ptr.node i => some (h i).next

/-- Read p->prev; fails on NULL. -/
def ptrPrev (h : Heap) : Ptr → Option Ptr
  | Ptr.null => none
  | Ptr.node i => some (h i).prev

/-- Write p->next := v; fails on NULL. -/
def setNext (h : Heap) : Ptr → Ptr → Option Heap
  | Ptr.null, _ => none
  | Ptr.node i, v => some (wNext h i v)

/-- Write p->prev := v; fails on NULL. -/
def setPrev (h : Heap) : Ptr → Ptr → Option Heap
  | Ptr.null, _ => none
  | Ptr.node i, v => some (wPrev h i v)

/-- LIST_POISON1 (source line 35): in the active configuration of the source
the non-null poison constants are compiled out and the poison is NULL. -/
def LIST_POISON1 : Ptr := Ptr.null

/-- LIST_POISON2 (source line 36): NULL in the active configuration. -/
def LIST_POISON2 : Ptr := Ptr.null

/-- INIT_LIST_HEAD (lines 76-80): list->next = list; list->prev = list. -/
def INIT_LIST_HEAD (h : Heap) (list : Ptr) : Option Heap := do
  let h1 ← setNext h list list
  setPrev h1 list list

/-- The internal insertion primitive __list_add (lines 88-94), with the
exact order of the four writes of the source. -/
def __list_add (h : Heap) (new_node prev_node next_node : Ptr) : Option Heap := do
  let h1 ← setPrev h next_node new_node
  let h2 ← setNext h1 new_node next_node
  let h3 ← setPrev h2 new_node prev_node
  setNext h3 prev_node new_node

/-- list_add (lines 101-104): head insertion; reads head_node->next, then
splices new_node between head_node and it. -/
def list_add (h : Heap) (new_node head_node : Ptr) : Option Heap := do
  let nx ← ptrNext h head_node
  __list_add h new_node head_node nx

/-- list_add_tail (lines 111-114): tail insertion; reads head_node->prev, then
splices new_node between it and head_node. -/
def list_add_tail (h : Heap) (new_node head_node : Ptr) : Option Heap := do
  let pv ← ptrPrev h head_node
  __list_add h new_node pv head_node

/-- The internal unlink primitive __list_del (lines 121-125):
next_node->prev = prev_node; prev_node->next = next_node. -/
def __list_del (h : Heap) (prev_node next_node : Ptr) : Option Heap := do
  let h1 ← setPrev h next_node prev_node
  setNext h1 prev_node next_node

/-- list_del (lines 131-136): unlink entry_node from between its neighbors,
then poison both of its fields. -/
def list_del (h : Heap) (entry_node : Ptr) : Option Heap := do
  let pv ← ptrPrev h entry_node
  let nx ← ptrNext h entry_node
  let h1 ← __list_del h pv nx
  let h2 ← setNext h1 entry_node LIST_POISON1
  setPrev h2 entry_node LIST_POISON2

/-- list_empty (lines 144-147): head_node->next == head_node. -/
def list_empty (h : Heap) (head_node : Ptr) : Option Bool := do
  let nx ← ptrNext h head_node
  pure (decide (nx = head_node))

/-- list_replace (lines 213-219), with the exact order of reads and writes:
new_node->next = old_node->next; new_node->next->prev = new_node;
new_node->prev = old_node->prev; new_node->prev->next = new_node. -/
def list_replace (h : Heap) (old_node new_node : Ptr) : Option Heap := do
  let t1 ← ptrNext h old_node
  let h1 ← setNext h new_node t1
  let t2 ← ptrNext h1 new_node
  let h2 ← setPrev h1 t2 new_node
  let t3 ← ptrPrev h2 old_node
  let h3 ← setPrev h2 new_node t3
  let t4 ← ptrPrev h3 new_node
  setNext h3 t4 new_node

/-- list_replace_init (lines 226-230): list_replace, then INIT_LIST_HEAD on
the replaced node. -/
def list_replace_init (h : Heap) (old_node new_node : Ptr) : Option Heap := do
  let h1 ← list_replace h old_node new_node
  INIT_LIST_HEAD h1 old_node

/-- Forward traversal of the ring, as in the list_for_each macro
(lines 181-182): start at head->next, follow next, stop at head.
Fuel bounds the number of steps; none means the fuel ran out or a NULL
pointer was followed. Returns the sequence of visited nodes. -/
def traverseFwd (fuel : Nat) (h : Heap) (headp cur : Ptr) : Option (List Ptr) :=
  match fuel with
  | 0 => none
  | fuel + 1 =>
    if cur = headp then some [] else
      match cur with
      | Ptr.null => none
      | Ptr.node i => do
        let rest ← traverseFwd fuel h headp (h i).next
        pure (Ptr.node i :: rest)

/-- One pass of the list_for_each_entry_safe loop (lines 202-206) whose body
calls list_del on the visited entry. State: pos is the current entry, n the
cached next entry. Each iteration with pos different from the head deletes
pos, then advances: pos = n; n = n->next (read in the updated heap, exactly
as the macro increment does after the body). Entries are identified with
their embedded links; the entry and link addresses determine each other,
see the offset round-trip theorems below. -/
def forEachSafeDel (fuel : Nat) (h : Heap) (headp pos n : Ptr) :
    Option (List Ptr × Heap) :=
  match fuel with
  | 0 => none
  | fuel + 1 =>
    if pos = headp then some ([], h) else do
      let h' ← list_del h pos
      let n' ← ptrNext h' n
      let (vs, hf) ← forEachSafeDel fuel h' headp n n'
      pure ((pos :: vs, hf) : List Ptr × Heap)

/-- The full list_for_each_entry_safe loop with a deleting body: the
initializer reads pos = head->next and n = pos->next, then iterates. -/
def safeDelAll (fuel : Nat) (h : Heap) (headp : Ptr) :
    Option (List Ptr × Heap) := do
  let pos ← ptrNext h headp
  let n ← ptrNext h pos
  forEachSafeDel fuel h headp pos n

/-- The address of the link member embedded at byte offset k of a structure
whose base address is given: base + k. This is what offsetof (lines 39-46)
measures and what forming a member address computes. -/
def member_addr (base k : Nat) : Nat := base + k

/-- container_of (lines 55-57): recover the base address of the embedding
structure from the address of its member at offset k, by subtracting k.
A pure address computation, no dereference. -/
def container_of (ptr k : Nat) : Nat := ptr - k

/-- list_entry (lines 155-156) is container_of verbatim. -/
def list_entry (ptr k : Nat) : Nat := container_of ptr k

/-!
Ring model: a well-formed circular ring is described by the cyclic list of
its node identifiers. A doubly-linked segment predicate carries both the
next-chain and the prev-chain.
-/

/-- First node of a segment, as a pointer; the exit pointer when empty. -/
def firstP (q : Ptr) : List Nat → Ptr
  | [] => q
  | x :: _ => Ptr.node x

/-- Last node of a segment, as a pointer; the entry pointer when empty. -/
def lastP (p : Ptr) : List Nat → Ptr
  | [] => p
  | x :: xs => lastP (Ptr.node x) xs

/-- Last element of a list of identifiers, with a default. -/
def lastN (d : Nat) : List Nat → Nat
  | [] => d
  | x :: xs => lastN x xs

/-- First element of a list of identifiers, with a default. -/
def firstN (d : Nat) : List Nat → Nat
  | [] => d
  | x :: _ => x

/-- Doubly-linked segment: the cells xs form a chain in h in which the prev
field of the first cell is p, consecutive cells point at each other in both
directions, and the next field of the last cell is q. -/
def dseg (h : Heap) : Ptr → List Nat → Ptr → Prop
  | _, [], _ => True
  | p, x :: xs, q => (h x).prev = p ∧ (h x).next = firstP q xs ∧ dseg h (Ptr.node x) xs q

/-- Well-formed ring: a nonempty list of pairwise distinct cells, cyclically
chained in both directions. -/
def isRing (h : Heap) (ids : List Nat) : Prop :=
  ids ≠ [] ∧ ids.Nodup ∧ dseg h (lastP Ptr.null ids) ids (firstP Ptr.null ids)

/-- The quiescent invariant of the spec for one node: x.next.prev == x and
x.prev.next == x, with both dereferences succeeding. -/
def nodeInv (h : Heap) (x : Nat) : Prop :=
  (ptrNext h (Ptr.node x)).bind (ptrPrev h) = some (Ptr.node x) ∧
  (ptrPrev h (Ptr.node x)).bind (ptrNext h) = some (Ptr.node x)

/-- Concrete heap: cell 0 is an isolated ring of size one; every other cell
also holds links to cell 0 (irrelevant junk outside the ring). -/
def exH1 : Heap := fun _ => { next := Ptr.node 0, prev := Ptr.node 0 }

/-- Concrete heap: ring of head cell 0 and one entry cell 1. -/
def exH2 : Heap := fun i =>
  if i = 0 then { next := Ptr.node 1, prev := Ptr.node 1 }
  else { next := Ptr.node 0, prev := Ptr.node 0 }

/-- Concrete heap: ring of cells 0, 1, 2 in forward order. -/
def exH3 : Heap := fun i =>
  if i = 0 then { next := Ptr.node 1, prev := Ptr.node 2 }
  else if i = 1 then { next := Ptr.node 2, prev := Ptr.node 0 }
  else { next := Ptr.node 0, prev := Ptr.node 1 }

/-- The cell at index i of the heap produced by list_del, used to exhibit
concrete outcomes of deletion. -/
def delCell (h : Heap) (p : Ptr) (i : Nat) : Option ListHead :=
  (list_del h p).map fun h' => h' i

theorem hupd_apply (h : Heap) (i : Nat) (c : ListHead) (j : Nat) :
    hupd h i c j = if j = i then c else h j := rfl

@[simp] theorem wNext_prev (h : Heap) (i : Nat) (v : Ptr) (j : Nat) :
    (wNext h i v j).prev = (h j).prev := by
  by_cases hj : j = i
  · subst hj; simp [wNext, hupd]
  · simp [wNext, hupd, hj]

@[simp] theorem wPrev_next (h : Heap) (i : Nat) (v : Ptr) (j : Nat) :
    (wPrev h i v j).next = (h j).next := by
  by_cases hj : j = i
  · subst hj; simp [wPrev, hupd]
  · simp [wPrev, hupd, hj]

@[simp] theorem wNext_next_same (h : Heap) (i : Nat) (v : Ptr) :
    (wNext h i v i).next = v := by simp [wNext, hupd]

@[simp] theorem wPrev_prev_same (h : Heap) (i : Nat) (v : Ptr) :
    (wPrev h i v i).prev = v := by simp [wPrev, hupd]

theorem wNext_next_ne (h : Heap) (i : Nat) (v : Ptr) (j : Nat) (hj : j ≠ i) :
    (wNext h i v j).next = (h j).next := by simp [wNext, hupd, hj]

theorem wPrev_prev_ne (h : Heap) (i : Nat) (v : Ptr) (j : Nat) (hj : j ≠ i) :
    (wPrev h i v j).prev = (h j).prev := by simp [wPrev, hupd, hj]

theorem wNext_ne (h : Heap) (i : Nat) (v : Ptr) (j : Nat) (hj : j ≠ i) :
    wNext h i v j = h j := by simp [wNext, hupd, hj]

theorem wPrev_ne (h : Heap) (i : Nat) (v : Ptr) (j : Nat) (hj : j ≠ i) :
    wPrev h i v j = h j := by simp [wPrev, hupd, hj]

@[simp] theorem dseg_nil (h : Heap) (p q : Ptr) : dseg h p [] q := trivial

theorem dseg_cons (h : Heap) (p q : Ptr) (x : Nat) (xs : List Nat) :
    dseg h p (x :: xs) q ↔
      (h x).prev = p ∧ (h x).next = firstP q xs ∧ dseg h (Ptr.node x) xs q :=
  Iff.rfl

theorem firstP_firstP (q : Ptr) (xs ys : List Nat) :
    firstP (firstP q ys) xs = firstP q (xs ++ ys) := by
  cases xs <;> rfl

theorem firstP_append_singleton (r : Ptr) (x : Nat) (xs : List Nat) :
    firstP r (xs ++ [x]) = firstP (Ptr.node x) xs := by
  cases xs <;> rfl

theorem lastP_cons (p : Ptr) (x : Nat) (xs : List Nat) :
    lastP p (x :: xs) = lastP (Ptr.node x) xs := rfl

theorem lastP_append (p : Ptr) (xs ys : List Nat) :
    lastP p (xs ++ ys) = lastP (lastP p xs) ys := by
  induction xs generalizing p with
  | nil => rfl
  | cons x xs ih => simpa [lastP] using ih (Ptr.node x)

theorem lastP_eq_lastN (p : Ptr) (x : Nat) (xs : List Nat) :
    lastP p (x :: xs) = Ptr.node (lastN x xs) := by
  induction xs generalizing p x with
  | nil => rfl
  | cons y ys ih => exact ih (Ptr.node x) y

theorem lastN_append_singleton (d x : Nat) (xs : List Nat) :
    lastN d (xs ++ [x]) = x := by
  induction xs generalizing d with
  | nil => rfl
  | cons y ys ih => exact ih y

theorem dseg_append (h : Heap) (p q : Ptr) (xs ys : List Nat) :
    dseg h p (xs ++ ys) q ↔
      dseg h p xs (firstP q ys) ∧ dseg h (lastP p xs) ys q := by
  induction xs generalizing p with
  | nil => simp [lastP]
  | cons x xs ih =>
    simp only [List.cons_append, dseg_cons, lastP_cons, ih (Ptr.node x), firstP_firstP]
    tauto

theorem dseg_frame (h h' : Heap) (p q : Ptr) (xs : List Nat)
    (hag : ∀ x ∈ xs, h' x = h x) (hds : dseg h p xs q) : dseg h' p xs q := by
  induction xs generalizing p with
  | nil => trivial
  | cons x xs ih =>
    obtain ⟨h1, h2, h3⟩ := hds
    refine ⟨?_, ?_, ih (Ptr.node x) (fun y hy => hag y (List.mem_cons_of_mem x hy)) h3⟩
    · rw [hag x (by simp)]; exact h1
    · rw [hag x (by simp)]; exact h2

theorem dseg_lastN_next (h : Heap) (p q : Ptr) (x : Nat) (xs : List Nat)
    (hds : dseg h p (x :: xs) q) : (h (lastN x xs)).next = q := by
  induction xs generalizing p x with
  | nil => exact hds.2.1
  | cons y ys ih => exact ih (Ptr.node x) y hds.2.2

theorem isRing_rotate (h : Heap) (x : Nat) (xs : List Nat)
    (hr : isRing h (x :: xs)) : isRing h (xs ++ [x]) := by
  obtain ⟨-, hnd, hds⟩ := hr
  rw [dseg_cons] at hds
  obtain ⟨hp, hn, hrest⟩ := hds
  refine ⟨by simp, ((List.perm_append_singleton x xs).symm).nodup hnd, ?_⟩
  have hl : lastP Ptr.null (xs ++ [x]) = Ptr.node x := by
    rw [lastP_append]; rfl
  rw [hl, firstP_append_singleton, dseg_append]
  constructor
  · simpa using hrest
  · refine ⟨?_, ?_, trivial⟩
    · rw [hp]; rfl
    · exact hn

theorem isRing_append_comm (h : Heap) (xs ys : List Nat)
    (hr : isRing h (xs ++ ys)) : isRing h (ys ++ xs) := by
  induction xs generalizing ys with
  | nil => simpa using hr
  | cons x xs ih =>
    have h1 : isRing h ((xs ++ ys) ++ [x]) :=
      isRing_rotate h x (xs ++ ys) (by simpa using hr)
    have h2 : isRing h (xs ++ (ys ++ [x])) := by
      rw [List.append_assoc] at h1; exact h1
    have h3 := ih (ys ++ [x]) h2
    rw [List.append_assoc] at h3
    simpa using h3

theorem isRing_nodeInv (h : Heap) (ids : List Nat) (x : Nat)
    (hr : isRing h ids) (hx : x ∈ ids) : nodeInv h x := by
  obtain ⟨l1, l2, rfl⟩ := List.append_of_mem hx
  have hr' : isRing h (x :: (l2 ++ l1)) := by
    have := isRing_append_comm h l1 (x :: l2) hr
    simpa using this
  obtain ⟨-, hnd, hds⟩ := hr'
  rw [dseg_cons] at hds
  obtain ⟨hp, hn, hrest⟩ := hds
  cases hlst : l2 ++ l1 with
  | nil =>
    rw [hlst] at hp hn
    simp only [lastP_eq_lastN, lastN] at hp
    simp only [firstP] at hn
    constructor
    · simp [ptrNext, ptrPrev, hn, hp, Option.bind]
    · simp [ptrNext, ptrPrev, hn, hp, Option.bind]
  | cons y ys =>
    rw [hlst] at hp hn hrest
    simp only [firstP] at hn
    have hyprev : (h y).prev = Ptr.node x := hrest.1
    have hplast : (h x).prev = Ptr.node (lastN y ys) := by
      rw [hp, lastP_eq_lastN]; rfl
    have hlnext : (h (lastN y ys)).next = Ptr.node x :=
      dseg_lastN_next h (Ptr.node x) (Ptr.node x) y ys hrest
    constructor
    · simp [ptrNext, ptrPrev, hn, hyprev, Option.bind]
    · simp [ptrNext, ptrPrev, hplast, hlnext, Option.bind]

theorem firstP_eq_firstN (d : Nat) (xs : List Nat) :
    firstP (Ptr.node d) xs = Ptr.node (firstN d xs) := by
  cases xs <;> rfl

theorem cons_eq_append_lastN (x : Nat) (xs : List Nat) :
    ∃ ys, x :: xs = ys ++ [lastN x xs] := by
  induction xs generalizing x with
  | nil => exact ⟨[], rfl⟩
  | cons y ys ih =>
    obtain ⟨zs, hz⟩ := ih y
    exact ⟨x :: zs, by rw [show lastN x (y :: ys) = lastN y ys from rfl,
      List.cons_append, ← hz]⟩

theorem isRing_frame (h h' : Heap) (ids : List Nat)
    (hag : ∀ x ∈ ids, h' x = h x) (hr : isRing h ids) : isRing h' ids :=
  ⟨hr.1, hr.2.1, dseg_frame h h' _ _ ids hag hr.2.2⟩

theorem isRing_singleton (h : Heap) (x : Nat) :
    isRing h [x] ↔ (h x).next = Ptr.node x ∧ (h x).prev = Ptr.node x := by
  constructor
  · rintro ⟨-, -, hp, hn, -⟩
    exact ⟨hn, hp⟩
  · rintro ⟨hn, hp⟩
    exact ⟨by simp, by simp, hp, hn, trivial⟩

/-!
Node-level equations of the operations: on non-NULL arguments each
operation reduces to an explicit sequence of field writes, in the order
the source performs them.
-/

theorem INIT_nodes (h : Heap) (l : Nat) :
    INIT_LIST_HEAD h (Ptr.node l) =
      some (wPrev (wNext h l (Ptr.node l)) l (Ptr.node l)) := rfl

theorem __list_add_nodes (h : Heap) (nw pv nx : Nat) :
    __list_add h (Ptr.node nw) (Ptr.node pv) (Ptr.node nx) =
      some (wNext (wPrev (wNext (wPrev h nx (Ptr.node nw)) nw (Ptr.node nx))
        nw (Ptr.node pv)) pv (Ptr.node nw)) := rfl

theorem list_add_nodes (h : Heap) (n hd b : Nat) (hb : (h hd).next = Ptr.node b) :
    list_add h (Ptr.node n) (Ptr.node hd) =
      some (wNext (wPrev (wNext (wPrev h b (Ptr.node n)) n (Ptr.node b))
        n (Ptr.node hd)) hd (Ptr.node n)) := by
  simp [list_add, ptrNext, hb, __list_add, setPrev, setNext, Option.bind]

theorem list_add_tail_nodes (h : Heap) (n hd a : Nat) (ha : (h hd).prev = Ptr.node a) :
    list_add_tail h (Ptr.node n) (Ptr.node hd) =
      some (wNext (wPrev (wNext (wPrev h hd (Ptr.node n)) n (Ptr.node hd))
        n (Ptr.node a)) a (Ptr.node n)) := by
  simp [list_add_tail, ptrPrev, ha, __list_add, setPrev, setNext, Option.bind]

theorem list_del_nodes (h : Heap) (e a b : Nat)
    (ha : (h e).prev = Ptr.node a) (hb : (h e).next = Ptr.node b) :
    list_del h (Ptr.node e) =
      some (wPrev (wNext (wNext (wPrev h b (Ptr.node a)) a (Ptr.node b))
        e LIST_POISON1) e LIST_POISON2) := by
  simp [list_del, __list_del, ptrPrev, ptrNext, ha, hb, setPrev, setNext, Option.bind]

theorem list_replace_nodes (h : Heap) (o nw a b : Nat)
    (hb : (h o).next = Ptr.node b) (ha : (h o).prev = Ptr.node a)
    (hob : o ≠ b) :
    list_replace h (Ptr.node o) (Ptr.node nw) =
      some (wNext (wPrev (wPrev (wNext h nw (Ptr.node b)) b (Ptr.node nw))
        nw (Ptr.node a)) a (Ptr.node nw)) := by
  have h2o : (wPrev (wNext h nw (Ptr.node b)) b (Ptr.node nw) o).prev = Ptr.node a := by
    rw [wPrev_prev_ne _ _ _ _ hob, wNext_prev, ha]
  simp [list_replace, ptrNext, ptrPrev, setNext, setPrev, hb, h2o, Option.bind]

theorem list_replace_isolated_nodes (h : Heap) (o nw : Nat)
    (hn : (h o).next = Ptr.node o) :
    list_replace h (Ptr.node o) (Ptr.node nw) =
      some (wNext (wPrev (wPrev (wNext h nw (Ptr.node o)) o (Ptr.node nw))
        nw (Ptr.node nw)) nw (Ptr.node nw)) := by
  simp [list_replace, ptrNext, ptrPrev, setNext, setPrev, hn, Option.bind]

/-!
Preservation of the ring shape by each operation.
-/

theorem add_ring (h : Heap) (hd n : Nat) (es : List Nat)
    (hr : isRing h (hd :: es)) (hn : n ∉ hd :: es) :
    ∃ h', list_add h (Ptr.node n) (Ptr.node hd) = some h' ∧
      isRing h' (hd :: n :: es) := by
  obtain ⟨-, hnd, hds⟩ := hr
  rw [dseg_cons, lastP_eq_lastN] at hds
  simp only [firstP] at hds
  obtain ⟨hp, hnx, hrest⟩ := hds
  have hnhd : n ≠ hd := fun he => hn (by simp [he])
  have hnes : n ∉ es := fun he => hn (List.mem_cons_of_mem hd he)
  obtain ⟨hhd, hndes⟩ := List.nodup_cons.mp hnd
  have hnodup : (hd :: n :: es).Nodup :=
    (List.Perm.swap hd n es).nodup (List.nodup_cons.mpr ⟨hn, hnd⟩)
  cases es with
  | nil =>
    simp only [firstP] at hnx
    refine ⟨_, list_add_nodes h n hd hd hnx, by simp, hnodup, ?_⟩
    simp only [dseg, firstP, lastP_eq_lastN, lastN]
    refine ⟨?_, ?_, ?_, ?_, trivial⟩
    · rw [wNext_prev, wPrev_prev_ne _ _ _ _ (Ne.symm hnhd), wNext_prev,
        wPrev_prev_same]
    · exact wNext_next_same _ _ _
    · rw [wNext_prev, wPrev_prev_same]
    · rw [wNext_next_ne _ _ _ _ hnhd, wPrev_next, wNext_next_same]
  | cons e es' =>
    simp only [firstP] at hnx
    simp only [lastN] at hp
    rw [dseg_cons] at hrest
    obtain ⟨hep, hen, hrest'⟩ := hrest
    have hne : n ≠ e := fun he => hnes (by simp [he])
    have hhde : hd ≠ e := fun he => hhd (by simp [he])
    have hhdes' : hd ∉ es' := fun he => hhd (List.mem_cons_of_mem e he)
    have hnes' : n ∉ es' := fun he => hnes (List.mem_cons_of_mem e he)
    obtain ⟨hees', hndes'⟩ := List.nodup_cons.mp hndes
    refine ⟨_, list_add_nodes h n hd e hnx, by simp, hnodup, ?_⟩
    simp only [dseg, firstP, lastP_eq_lastN, lastN]
    refine ⟨?_, ?_, ?_, ?_, ?_, ?_, ?_⟩
    · rw [wNext_prev, wPrev_prev_ne _ _ _ _ (Ne.symm hnhd), wNext_prev,
        wPrev_prev_ne _ _ _ _ hhde]
      exact hp
    · exact wNext_next_same _ _ _
    · rw [wNext_prev, wPrev_prev_same]
    · rw [wNext_next_ne _ _ _ _ hnhd, wPrev_next, wNext_next_same]
    · rw [wNext_prev, wPrev_prev_ne _ _ _ _ (Ne.symm hne), wNext_prev,
        wPrev_prev_same]
    · rw [wNext_next_ne _ _ _ _ (Ne.symm hhde), wPrev_next,
        wNext_next_ne _ _ _ _ (Ne.symm hne), wPrev_next]
      exact hen
    · refine dseg_frame h _ _ _ es' (fun x hx => ?_) hrest'
      have hxn : x ≠ n := fun hc => hnes' (hc ▸ hx)
      have hxhd : x ≠ hd := fun hc => hhdes' (hc ▸ hx)
      have hxe : x ≠ e := fun hc => hees' (hc ▸ hx)
      rw [wNext_ne _ _ _ _ hxhd, wPrev_ne _ _ _ _ hxn, wNext_ne _ _ _ _ hxn,
        wPrev_ne _ _ _ _ hxe]

theorem add_tail_ring (h : Heap) (hd n : Nat) (es : List Nat)
    (hr : isRing h (hd :: es)) (hn : n ∉ hd :: es) :
    ∃ h', list_add_tail h (Ptr.node n) (Ptr.node hd) = some h' ∧
      isRing h' (hd :: (es ++ [n])) := by
  obtain ⟨-, hnd, hds⟩ := hr
  rw [dseg_cons, lastP_eq_lastN] at hds
  simp only [firstP] at hds
  obtain ⟨hp, hnx, hrest⟩ := hds
  have hnhd : n ≠ hd := fun he => hn (by simp [he])
  have hnes : n ∉ es := fun he => hn (List.mem_cons_of_mem hd he)
  obtain ⟨hhd, hndes⟩ := List.nodup_cons.mp hnd
  have hnodup : (hd :: (es ++ [n])).Nodup := by
    refine List.nodup_cons.mpr ⟨?_, ?_⟩
    · simp only [List.mem_append, List.mem_singleton]
      rintro (hc | hc)
      · exact hhd hc
      · exact hnhd hc.symm
    · refine List.Nodup.append hndes (List.nodup_singleton n) ?_
      intro x hx hx'
      rw [List.mem_singleton] at hx'
      exact hnes (hx' ▸ hx)
  cases es with
  | nil =>
    simp only [lastN] at hp
    refine ⟨_, list_add_tail_nodes h n hd hd hp, by simp, hnodup, ?_⟩
    simp only [List.nil_append, dseg, firstP, lastP_eq_lastN, lastN]
    refine ⟨?_, ?_, ?_, ?_, trivial⟩
    · rw [wNext_prev, wPrev_prev_ne _ _ _ _ (Ne.symm hnhd), wNext_prev,
        wPrev_prev_same]
    · exact wNext_next_same _ _ _
    · rw [wNext_prev, wPrev_prev_same]
    · rw [wNext_next_ne _ _ _ _ hnhd, wPrev_next, wNext_next_same]
  | cons e es' =>
    simp only [firstP] at hnx
    simp only [lastN] at hp
    obtain ⟨ys, hys⟩ := cons_eq_append_lastN e es'
    have hmema : lastN e es' ∈ e :: es' := by rw [hys]; simp
    have hahd : lastN e es' ≠ hd := fun hc => hhd (hc ▸ hmema)
    have han : lastN e es' ≠ n := fun hc => hnes (hc ▸ hmema)
    have haysdisj : lastN e es' ∉ ys := by
      intro hc
      have hnd2 : (ys ++ [lastN e es']).Nodup := hys ▸ hndes
      exact (List.disjoint_of_nodup_append hnd2) hc (List.mem_singleton_self _)
    refine ⟨_, list_add_tail_nodes h n hd (lastN e es') hp, by simp, hnodup, ?_⟩
    rw [lastP_eq_lastN, lastN_append_singleton]
    simp only [firstP]
    rw [dseg_cons]
    refine ⟨?_, ?_, ?_⟩
    · rw [wNext_prev, wPrev_prev_ne _ _ _ _ (Ne.symm hnhd), wNext_prev,
        wPrev_prev_same]
    · rw [firstP_append_singleton]
      simp only [firstP]
      rw [wNext_next_ne _ _ _ _ (Ne.symm hahd), wPrev_next,
        wNext_next_ne _ _ _ _ (Ne.symm hnhd), wPrev_next]
      exact hnx
    · rw [dseg_append]
      constructor
      · -- segment of the old entries, now exiting to the new tail node
        rw [hys, dseg_append] at hrest ⊢
        obtain ⟨hseg, hlast⟩ := hrest
        simp only [firstP] at hseg hlast ⊢
        constructor
        · refine dseg_frame h _ _ _ ys (fun x hx => ?_) hseg
          have hxes : x ∈ e :: es' := by rw [hys]; exact List.mem_append_left _ hx
          have hxhd : x ≠ hd := fun hc => hhd (hc ▸ hxes)
          have hxn : x ≠ n := fun hc => hnes (hc ▸ hxes)
          have hxa : x ≠ lastN e es' := fun hc => haysdisj (hc ▸ hx)
          rw [wNext_ne _ _ _ _ hxa, wPrev_ne _ _ _ _ hxn, wNext_ne _ _ _ _ hxn,
            wPrev_ne _ _ _ _ hxhd]
        · obtain ⟨hap, han2, -⟩ := hlast
          refine ⟨?_, ?_, trivial⟩
          · rw [wNext_prev, wPrev_prev_ne _ _ _ _ han, wNext_prev,
              wPrev_prev_ne _ _ _ _ hahd]
            exact hap
          · exact wNext_next_same _ _ _
      · rw [lastP_eq_lastN]
        refine ⟨?_, ?_, trivial⟩
        · rw [wNext_prev, wPrev_prev_same]
        · simp only [firstP]
          rw [wNext_next_ne _ _ _ _ (Ne.symm han), wPrev_next, wNext_next_same]

theorem del_ring (h : Heap) (n m : Nat) (l' : List Nat)
    (hr : isRing h (n :: m :: l')) :
    (h n).prev = Ptr.node (lastN m l') ∧ (h n).next = Ptr.node m ∧
    ∃ h', list_del h (Ptr.node n) = some h' ∧ isRing h' (m :: l') ∧
      (h' n).next = LIST_POISON1 ∧ (h' n).prev = LIST_POISON2 ∧
      (h' (lastN m l')).next = Ptr.node m ∧ (h' m).prev = Ptr.node (lastN m l') ∧
      (∀ x, x ≠ n → x ≠ m → x ≠ lastN m l' → h' x = h x) ∧
      (lastN m l' ≠ m →
        (h' (lastN m l')).prev = (h (lastN m l')).prev ∧
        (h' m).next = (h m).next) := by
  obtain ⟨-, hnd, hds⟩ := hr
  rw [dseg_cons, lastP_eq_lastN] at hds
  simp only [firstP, lastN] at hds
  obtain ⟨hp, hnx, hrest⟩ := hds
  obtain ⟨hnmem, hnd1⟩ := List.nodup_cons.mp hnd
  obtain ⟨hmml, hndl'⟩ := List.nodup_cons.mp hnd1
  have hnm : n ≠ m := fun hc => hnmem (by simp [hc])
  have hnl' : n ∉ l' := fun hc => hnmem (List.mem_cons_of_mem m hc)
  refine ⟨hp, hnx, ?_⟩
  cases l' with
  | nil =>
    simp only [lastN] at hp ⊢
    refine ⟨_, list_del_nodes h n m m hp hnx, ?_, ?_, ?_, ?_, ?_, ?_, ?_⟩
    · rw [isRing_singleton]
      constructor
      · rw [wPrev_next, wNext_next_ne _ _ _ _ (Ne.symm hnm), wNext_next_same]
      · rw [wPrev_prev_ne _ _ _ _ (Ne.symm hnm), wNext_prev, wNext_prev,
          wPrev_prev_same]
    · rw [wPrev_next, wNext_next_same]
    · rw [wPrev_prev_same]
    · rw [wPrev_next, wNext_next_ne _ _ _ _ (Ne.symm hnm), wNext_next_same]
    · rw [wPrev_prev_ne _ _ _ _ (Ne.symm hnm), wNext_prev, wNext_prev,
        wPrev_prev_same]
    · intro x hxn hxm _
      rw [wPrev_ne _ _ _ _ hxn, wNext_ne _ _ _ _ hxn, wNext_ne _ _ _ _ hxm,
        wPrev_ne _ _ _ _ hxm]
    · intro hc; exact absurd rfl hc
  | cons t l'' =>
    simp only [lastN] at hp ⊢
    obtain ⟨ys, hys⟩ := cons_eq_append_lastN t l''
    have hmema : lastN t l'' ∈ t :: l'' := by rw [hys]; simp
    have han : lastN t l'' ≠ n := fun hc => hnl' (hc ▸ hmema)
    have ham : lastN t l'' ≠ m := fun hc => hmml (hc ▸ hmema)
    have haysdisj : lastN t l'' ∉ ys := by
      intro hc
      have hnd2 : (ys ++ [lastN t l'']).Nodup := hys ▸ hndl'
      exact (List.disjoint_of_nodup_append hnd2) hc (List.mem_singleton_self _)
    rw [dseg_cons] at hrest
    simp only [firstP] at hrest
    obtain ⟨hmp, hmn, hrest2⟩ := hrest
    refine ⟨_, list_del_nodes h n (lastN t l'') m hp hnx, ?_, ?_, ?_, ?_, ?_, ?_, ?_⟩
    · refine ⟨by simp, hnd1, ?_⟩
      rw [lastP_eq_lastN]
      simp only [firstP, lastN]
      rw [dseg_cons]
      refine ⟨?_, ?_, ?_⟩
      · rw [wPrev_prev_ne _ _ _ _ (Ne.symm hnm), wNext_prev, wNext_prev,
          wPrev_prev_same]
      · simp only [firstP]
        rw [wPrev_next, wNext_next_ne _ _ _ _ (Ne.symm hnm),
          wNext_next_ne _ _ _ _ (Ne.symm ham), wPrev_next]
        exact hmn
      · rw [hys, dseg_append] at hrest2 ⊢
        obtain ⟨hseg, hlast⟩ := hrest2
        simp only [firstP] at hseg hlast ⊢
        obtain ⟨hap, -, -⟩ := hlast
        constructor
        · refine dseg_frame h _ _ _ ys (fun x hx => ?_) hseg
          have hxl' : x ∈ t :: l'' := by rw [hys]; exact List.mem_append_left _ hx
          have hxn : x ≠ n := fun hc => hnl' (hc ▸ hxl')
          have hxm : x ≠ m := fun hc => hmml (hc ▸ hxl')
          have hxa : x ≠ lastN t l'' := fun hc => haysdisj (hc ▸ hx)
          rw [wPrev_ne _ _ _ _ hxn, wNext_ne _ _ _ _ hxn, wNext_ne _ _ _ _ hxa,
            wPrev_ne _ _ _ _ hxm]
        · refine ⟨?_, ?_, trivial⟩
          · rw [wPrev_prev_ne _ _ _ _ han, wNext_prev, wNext_prev,
              wPrev_prev_ne _ _ _ _ ham]
            exact hap
          · rw [wPrev_next, wNext_next_ne _ _ _ _ han, wNext_next_same]
            rfl
    · rw [wPrev_next, wNext_next_same]
    · rw [wPrev_prev_same]
    · rw [wPrev_next, wNext_next_ne _ _ _ _ han, wNext_next_same]
    · rw [wPrev_prev_ne _ _ _ _ (Ne.symm hnm), wNext_prev, wNext_prev,
        wPrev_prev_same]
    · intro x hxn hxm hxa
      rw [wPrev_ne _ _ _ _ hxn, wNext_ne _ _ _ _ hxn, wNext_ne _ _ _ _ hxa,
        wPrev_ne _ _ _ _ hxm]
    · intro _
      constructor
      · rw [wPrev_prev_ne _ _ _ _ han, wNext_prev, wNext_prev,
          wPrev_prev_ne _ _ _ _ ham]
      · rw [wPrev_next, wNext_next_ne _ _ _ _ (Ne.symm hnm),
          wNext_next_ne _ _ _ _ (Ne.symm ham), wPrev_next]

theorem replace_ring (h : Heap) (o nw : Nat) (l : List Nat)
    (hr : isRing h (o :: l)) (hnw : nw ∉ o :: l) :
    ∃ h', list_replace h (Ptr.node o) (Ptr.node nw) = some h' ∧
      isRing h' (nw :: l) := by
  obtain ⟨-, hnd, hds⟩ := hr
  rw [dseg_cons, lastP_eq_lastN] at hds
  simp only [firstP] at hds
  obtain ⟨hp, hnx, hrest⟩ := hds
  obtain ⟨homem, hndl⟩ := List.nodup_cons.mp hnd
  have honw : o ≠ nw := fun hc => hnw (by simp [hc])
  have hnwl : nw ∉ l := fun hc => hnw (List.mem_cons_of_mem o hc)
  have hnodup : (nw :: l).Nodup := List.nodup_cons.mpr ⟨hnwl, hndl⟩
  cases l with
  | nil =>
    simp only [firstP] at hnx
    refine ⟨_, list_replace_isolated_nodes h o nw hnx, ?_⟩
    rw [isRing_singleton]
    constructor
    · exact wNext_next_same _ _ _
    · rw [wNext_prev, wPrev_prev_same]
  | cons m l'' =>
    simp only [firstP] at hnx
    simp only [lastN] at hp
    have hom : o ≠ m := fun hc => homem (by simp [hc])
    have hml'' : m ∉ l'' := (List.nodup_cons.mp hndl).1
    have hnwm : nw ≠ m := fun hc => hnwl (by simp [hc])
    have hnwl'' : nw ∉ l'' := fun hc => hnwl (List.mem_cons_of_mem m hc)
    rw [dseg_cons] at hrest
    simp only [firstP] at hrest
    obtain ⟨hmp, hmn, hrest2⟩ := hrest
    refine ⟨_, list_replace_nodes h o nw (lastN m l'') m hnx hp hom, ?_⟩
    refine ⟨by simp, hnodup, ?_⟩
    rw [lastP_eq_lastN]
    simp only [firstP, lastN]
    rw [dseg_cons]
    cases l'' with
    | nil =>
      simp only [lastN] at *
      refine ⟨?_, ?_, ?_⟩
      · rw [wNext_prev, wPrev_prev_same]
      · simp only [firstP]
        rw [wNext_next_ne _ _ _ _ hnwm, wPrev_next, wPrev_next,
          wNext_next_same]
      · refine ⟨?_, ?_, trivial⟩
        · rw [wNext_prev, wPrev_prev_ne _ _ _ _ (Ne.symm hnwm), wPrev_prev_same]
        · simp only [firstP]
          rw [wNext_next_same]
    | cons t ts =>
      simp only [lastN] at *
      obtain ⟨ys, hys⟩ := cons_eq_append_lastN t ts
      have hmema : lastN t ts ∈ t :: ts := by rw [hys]; simp
      have ham : lastN t ts ≠ m := fun hc => hml'' (hc ▸ hmema)
      have hanw : lastN t ts ≠ nw := fun hc => hnwl'' (hc ▸ hmema)
      have haysdisj : lastN t ts ∉ ys := by
        intro hc
        have hnd2 : (ys ++ [lastN t ts]).Nodup :=
          hys ▸ (List.nodup_cons.mp hndl).2
        exact (List.disjoint_of_nodup_append hnd2) hc (List.mem_singleton_self _)
      refine ⟨?_, ?_, ?_⟩
      · rw [wNext_prev, wPrev_prev_same]
      · simp only [firstP]
        rw [wNext_next_ne _ _ _ _ (Ne.symm hanw), wPrev_next, wPrev_next,
          wNext_next_same]
      · rw [dseg_cons]
        simp only [firstP]
        refine ⟨?_, ?_, ?_⟩
        · rw [wNext_prev, wPrev_prev_ne _ _ _ _ (Ne.symm hnwm),
            wPrev_prev_same]
        · rw [wNext_next_ne _ _ _ _ (Ne.symm ham), wPrev_next, wPrev_next,
            wNext_next_ne _ _ _ _ (Ne.symm hnwm)]
          exact hmn
        · rw [hys, dseg_append] at hrest2 ⊢
          obtain ⟨hseg, hlast⟩ := hrest2
          simp only [firstP] at hseg hlast ⊢
          obtain ⟨hap, -, -⟩ := hlast
          constructor
          · refine dseg_frame h _ _ _ ys (fun x hx => ?_) hseg
            have hxl'' : x ∈ t :: ts := by rw [hys]; exact List.mem_append_left _ hx
            have hxm : x ≠ m := fun hc => hml'' (hc ▸ hxl'')
            have hxnw : x ≠ nw := fun hc => hnwl'' (hc ▸ hxl'')
            have hxa : x ≠ lastN t ts := fun hc => haysdisj (hc ▸ hx)
            rw [wNext_ne _ _ _ _ hxa, wPrev_ne _ _ _ _ hxnw, wPrev_ne _ _ _ _ hxm,
              wNext_ne _ _ _ _ hxnw]
          · refine ⟨?_, ?_, trivial⟩
            · rw [wNext_prev, wPrev_prev_ne _ _ _ _ hanw,
                wPrev_prev_ne _ _ _ _ ham, wNext_prev]
              exact hap
            · rw [wNext_next_same]
              rfl

theorem replace_init_ring (h : Heap) (o nw : Nat) (l : List Nat)
    (hr : isRing h (o :: l)) (hnw : nw ∉ o :: l) :
    ∃ h', list_replace_init h (Ptr.node o) (Ptr.node nw) = some h' ∧
      isRing h' (nw :: l) ∧ (h' o).next = Ptr.node o ∧ (h' o).prev = Ptr.node o := by
  obtain ⟨h1, heq, hring⟩ := replace_ring h o nw l hr hnw
  have honw : o ≠ nw := fun hc => hnw (by simp [hc])
  have hol : o ∉ l := (List.nodup_cons.mp hr.2.1).1
  refine ⟨wPrev (wNext h1 o (Ptr.node o)) o (Ptr.node o), ?_, ?_, ?_, ?_⟩
  · simp [list_replace_init, heq, INIT_nodes, Option.bind]
  · refine isRing_frame h1 _ _ (fun x hx => ?_) hring
    have hxo : x ≠ o := by
      intro he
      rcases List.mem_cons.mp hx with hc | hc
      · exact honw (he.symm.trans hc)
      · exact hol (he ▸ hc)
    rw [wPrev_ne _ _ _ _ hxo, wNext_ne _ _ _ _ hxo]
  · rw [wPrev_next, wNext_next_same]
  · rw [wPrev_prev_same]

/-!
Traversal of a well-formed ring, and the removal-safe loop that deletes
every entry.
-/

theorem firstN_append_singleton (d y : Nat) (xs : List Nat) :
    firstN d (xs ++ [y]) = firstN y xs := by
  cases xs <;> rfl

theorem traverseFwd_step (fuel : Nat) (h : Heap) (hd e : Nat) (hne : e ≠ hd) :
    traverseFwd (fuel + 1) h (Ptr.node hd) (Ptr.node e) =
      (traverseFwd fuel h (Ptr.node hd) ((h e).next)).bind
        (fun rest => some (Ptr.node e :: rest)) := by
  simp [traverseFwd, hne, Option.bind]

theorem traverseFwd_dseg (h : Heap) (hd : Nat) :
    ∀ (es : List Nat) (p : Ptr), hd ∉ es → dseg h p es (Ptr.node hd) →
      traverseFwd (es.length + 1) h (Ptr.node hd) (firstP (Ptr.node hd) es) =
        some (es.map Ptr.node) := by
  intro es
  induction es with
  | nil => intro p _ _; simp [traverseFwd, firstP]
  | cons e es' ih =>
    intro p hnotin hds
    obtain ⟨hep, hen, hrest⟩ := hds
    have hehd : e ≠ hd := fun hc => hnotin (by simp [hc])
    have hnotin' : hd ∉ es' := fun hc => hnotin (List.mem_cons_of_mem e hc)
    simp only [firstP, List.length_cons, List.map_cons]
    rw [traverseFwd_step _ h hd e hehd, hen,
      ih (Ptr.node e) hnotin' hrest]
    rfl

theorem traverseFwd_ring (h : Heap) (hd : Nat) (es : List Nat)
    (hr : isRing h (hd :: es)) :
    traverseFwd (es.length + 1) h (Ptr.node hd) ((h hd).next) =
      some (es.map Ptr.node) := by
  obtain ⟨-, hnd, hds⟩ := hr
  rw [dseg_cons] at hds
  simp only [firstP] at hds
  obtain ⟨-, hnx, hrest⟩ := hds
  rw [hnx]
  exact traverseFwd_dseg h hd es (Ptr.node hd) (List.nodup_cons.mp hnd).1 hrest

theorem del_ring' (h : Heap) (n : Nat) (l : List Nat) (hne : l ≠ [])
    (hr : isRing h (n :: l)) :
    (h n).next = Ptr.node (firstN n l) ∧
    ∃ h', list_del h (Ptr.node n) = some h' ∧ isRing h' l := by
  cases l with
  | nil => exact absurd rfl hne
  | cons m l' =>
    obtain ⟨-, hnx, h', heq, hring, -⟩ := del_ring h n m l' hr
    exact ⟨hnx, h', heq, hring⟩

theorem forEachSafeDel_step (fuel : Nat) (h h' : Heap) (hd e k : Nat)
    (hne : e ≠ hd) (hdel : list_del h (Ptr.node e) = some h') :
    forEachSafeDel (fuel + 1) h (Ptr.node hd) (Ptr.node e) (Ptr.node k) =
      (forEachSafeDel fuel h' (Ptr.node hd) (Ptr.node k) ((h' k).next)).bind
        (fun r => some (Ptr.node e :: r.1, r.2)) := by
  simp [forEachSafeDel, hne, hdel, ptrNext, Option.bind]

theorem forEachSafeDel_ring (hd : Nat) :
    ∀ (es : List Nat) (h : Heap), isRing h (hd :: es) →
      ∃ hf, forEachSafeDel (es.length + 1) h (Ptr.node hd)
          (Ptr.node (firstN hd es)) ((h (firstN hd es)).next)
          = some (es.map Ptr.node, hf) ∧
        (hf hd).next = Ptr.node hd ∧ (hf hd).prev = Ptr.node hd := by
  intro es
  induction es with
  | nil =>
    intro h hr
    refine ⟨h, ?_, ((isRing_singleton h hd).mp hr).1,
      ((isRing_singleton h hd).mp hr).2⟩
    simp [forEachSafeDel, firstN]
  | cons e es' ih =>
    intro h hr
    have hehd : e ≠ hd := by
      have := (List.nodup_cons.mp hr.2.1).1
      exact fun hc => this (by simp [hc])
    have hrot : isRing h (e :: (es' ++ [hd])) := by
      have := isRing_rotate h hd (e :: es') hr
      simpa using this
    obtain ⟨hnx, h', heq, hring'⟩ :=
      del_ring' h e (es' ++ [hd]) (by simp) hrot
    have hback : isRing h' (hd :: es') := by
      have := isRing_append_comm h' es' [hd] hring'
      simpa using this
    obtain ⟨hf, heqloop, hfn, hfp⟩ := ih h' hback
    refine ⟨hf, ?_, hfn, hfp⟩
    show forEachSafeDel (es'.length + 1 + 1) h (Ptr.node hd) (Ptr.node e)
      ((h e).next) = some ((e :: es').map Ptr.node, hf)
    rw [hnx, firstN_append_singleton,
      forEachSafeDel_step (es'.length + 1) h h' hd e (firstN hd es') hehd heq,
      heqloop]
    rfl

theorem safeDelAll_ring (h : Heap) (hd : Nat) (es : List Nat)
    (hr : isRing h (hd :: es)) :
    ∃ hf, safeDelAll (es.length + 1) h (Ptr.node hd) = some (es.map Ptr.node, hf) ∧
      (hf hd).next = Ptr.node hd ∧ (hf hd).prev = Ptr.node hd := by
  obtain ⟨hf, heq, h1, h2⟩ := forEachSafeDel_ring hd es h hr
  have hpos : (h hd).next = Ptr.node (firstN hd es) := by
    obtain ⟨-, -, hds⟩ := hr
    rw [dseg_cons] at hds
    have h1 := hds.2.1
    rw [show firstP Ptr.null (hd :: es) = Ptr.node hd from rfl] at h1
    rw [h1, firstP_eq_firstN]
  refine ⟨hf, ?_, h1, h2⟩
  simp [safeDelAll, ptrNext, hpos, heq, Option.bind]

/-!
Concrete example rings, and remaining helper lemmas.
-/

theorem exH1_ring : isRing exH1 [0] := by
  refine ⟨by simp, by simp, ?_⟩
  simp [dseg, firstP, lastP, exH1]

theorem exH2_ring : isRing exH2 [0, 1] := by
  refine ⟨by simp, by decide, ?_⟩
  simp [dseg, firstP, lastP, exH2]

theorem exH3_ring : isRing exH3 [0, 1, 2] := by
  refine ⟨by simp, by decide, ?_⟩
  simp [dseg, firstP, lastP, exH3]

theorem INIT_ring (h : Heap) (l : Nat) :
    ∃ h', INIT_LIST_HEAD h (Ptr.node l) = some h' ∧ isRing h' [l] ∧
      ∀ x, x ≠ l → h' x = h x := by
  refine ⟨_, INIT_nodes h l, ?_, ?_⟩
  · rw [isRing_singleton]
    constructor
    · rw [wPrev_next, wNext_next_same]
    · rw [wPrev_prev_same]
  · intro x hx
    rw [wPrev_ne _ _ _ _ hx, wNext_ne _ _ _ _ hx]

theorem del_ring_rot (h : Heap) (n : Nat) (r : List Nat) (hne : r ≠ [])
    (hr : isRing h (n :: r)) :
    ∃ a b, (h n).prev = Ptr.node a ∧ (h n).next = Ptr.node b ∧
      ∃ h', list_del h (Ptr.node n) = some h' ∧ isRing h' r ∧
        (h' a).next = Ptr.node b ∧ (h' b).prev = Ptr.node a := by
  cases r with
  | nil => exact absurd rfl hne
  | cons m l' =>
    obtain ⟨hp, hnx, h', heq, hring, -, -, hanext, hmprev, -, -⟩ :=
      del_ring h n m l' hr
    exact ⟨lastN m l', m, hp, hnx, h', heq, hring, hanext, hmprev⟩

/-!
The claims.
-/

/-- Claim C1: for every node x of any well-formed ring, the invariant
x.next.prev == x and x.prev.next == x holds again after each of the
operations INIT_LIST_HEAD, list_add, list_add_tail, list_del, list_replace
and list_replace_init completes, given it held before the operation and the
precondition of the operation held. -/
theorem C1_invariant_preserved :
    (∀ (h : Heap) (l : Nat),
      ∃ h', INIT_LIST_HEAD h (Ptr.node l) = some h' ∧ ∀ x ∈ [l], nodeInv h' x) ∧
    (∀ (h : Heap) (hd n : Nat) (es : List Nat),
      isRing h (hd :: es) → n ∉ hd :: es →
      ∃ h', list_add h (Ptr.node n) (Ptr.node hd) = some h' ∧
        ∀ x ∈ hd :: n :: es, nodeInv h' x) ∧
    (∀ (h : Heap) (hd n : Nat) (es : List Nat),
      isRing h (hd :: es) → n ∉ hd :: es →
      ∃ h', list_add_tail h (Ptr.node n) (Ptr.node hd) = some h' ∧
        ∀ x ∈ hd :: (es ++ [n]), nodeInv h' x) ∧
    (∀ (h : Heap) (n : Nat) (l : List Nat),
      isRing h (n :: l) → l ≠ [] →
      ∃ h', list_del h (Ptr.node n) = some h' ∧ ∀ x ∈ l, nodeInv h' x) ∧
    (∀ (h : Heap) (o nw : Nat) (l : List Nat),
      isRing h (o :: l) → nw ∉ o :: l →
      ∃ h', list_replace h (Ptr.node o) (Ptr.node nw) = some h' ∧
        ∀ x ∈ nw :: l, nodeInv h' x) ∧
    (∀ (h : Heap) (o nw : Nat) (l : List Nat),
      isRing h (o :: l) → nw ∉ o :: l →
      ∃ h', list_replace_init h (Ptr.node o) (Ptr.node nw) = some h' ∧
        (∀ x ∈ nw :: l, nodeInv h' x) ∧ nodeInv h' o) := by
  refine ⟨?_, ?_, ?_, ?_, ?_, ?_⟩
  · intro h l
    obtain ⟨h', heq, hring, -⟩ := INIT_ring h l
    exact ⟨h', heq, fun x hx => isRing_nodeInv h' [l] x hring hx⟩
  · intro h hd n es hr hn
    obtain ⟨h', heq, hring⟩ := add_ring h hd n es hr hn
    exact ⟨h', heq, fun x hx => isRing_nodeInv h' _ x hring hx⟩
  · intro h hd n es hr hn
    obtain ⟨h', heq, hring⟩ := add_tail_ring h hd n es hr hn
    exact ⟨h', heq, fun x hx => isRing_nodeInv h' _ x hring hx⟩
  · intro h n l hr hne
    obtain ⟨-, h', heq, hring⟩ := del_ring' h n l hne hr
    exact ⟨h', heq, fun x hx => isRing_nodeInv h' _ x hring hx⟩
  · intro h o nw l hr hnw
    obtain ⟨h', heq, hring⟩ := replace_ring h o nw l hr hnw
    exact ⟨h', heq, fun x hx => isRing_nodeInv h' _ x hring hx⟩
  · intro h o nw l hr hnw
    obtain ⟨h', heq, hring, hn, hp⟩ := replace_init_ring h o nw l hr hnw
    refine ⟨h', heq, fun x hx => isRing_nodeInv h' _ x hring hx, ?_⟩
    exact isRing_nodeInv h' [o] o ((isRing_singleton h' o).mpr ⟨hn, hp⟩) (by simp)

/-- Claim C2, counterexample: list_del on the concrete two-cell ring writes
NULL into both fields of the removed node, because the active configuration
of the source defines LIST_POISON1 and LIST_POISON2 as NULL; the stored
sentinel is therefore not distinct from null, contrary to the claim. -/
theorem C2_poison_counterexample :
    delCell exH2 (Ptr.node 1) 1 = some { next := Ptr.null, prev := Ptr.null } ∧
    LIST_POISON1 = Ptr.null ∧ LIST_POISON2 = Ptr.null :=
  ⟨rfl, rfl, rfl⟩

/-- Claim C2, amended: for every node linked in a well-formed ring, list_del
sets the next and prev fields of the removed node to the designated
sentinels LIST_POISON1 and LIST_POISON2; in the compiled configuration of
this source both sentinels are NULL (the distinct non-null poison constants
are compiled out by the preprocessor). -/
theorem C2_poison_amended (h : Heap) (ids : List Nat) (n : Nat)
    (hr : isRing h ids) (hn : n ∈ ids) :
    ∃ h', list_del h (Ptr.node n) = some h' ∧
      (h' n).next = LIST_POISON1 ∧ (h' n).prev = LIST_POISON2 ∧
      LIST_POISON1 = Ptr.null ∧ LIST_POISON2 = Ptr.null := by
  obtain ⟨l1, l2, rfl⟩ := List.append_of_mem hn
  have hrot : isRing h (n :: (l2 ++ l1)) := by
    simpa using isRing_append_comm h l1 (n :: l2) hr
  cases hl : l2 ++ l1 with
  | nil =>
    rw [hl] at hrot
    obtain ⟨hn1, hp1⟩ := (isRing_singleton h n).mp hrot
    refine ⟨_, list_del_nodes h n n n hp1 hn1, ?_, ?_, rfl, rfl⟩
    · rw [wPrev_next, wNext_next_same]
    · rw [wPrev_prev_same]
  | cons m l' =>
    rw [hl] at hrot
    obtain ⟨-, -, h', heq, -, hp1, hp2, -, -, -, -⟩ := del_ring h n m l' hrot
    exact ⟨h', heq, hp1, hp2, rfl, rfl⟩

/-- Claim C3: the removal-safe traversal over a well-formed ring of N
entries whose body deletes every visited entry performs exactly N visits,
visits each entry exactly once, and leaves the ring empty, the head linking
to itself. -/
theorem C3_safe_del_traversal (h : Heap) (hd : Nat) (es : List Nat)
    (hr : isRing h (hd :: es)) :
    ∃ hf, safeDelAll (es.length + 1) h (Ptr.node hd)
        = some (es.map Ptr.node, hf) ∧
      (es.map Ptr.node).length = es.length ∧ (es.map Ptr.node).Nodup ∧
      (∀ e ∈ es, Ptr.node e ∈ es.map Ptr.node) ∧
      (hf hd).next = Ptr.node hd ∧ (hf hd).prev = Ptr.node hd := by
  obtain ⟨hf, heq, h1, h2⟩ := safeDelAll_ring h hd es hr
  refine ⟨hf, heq, by simp, ?_, ?_, h1, h2⟩
  · have hinj : Function.Injective Ptr.node := fun a b hab => by
      injection hab
    exact ((List.nodup_cons.mp hr.2.1).2).map hinj
  · intro e he
    exact List.mem_map_of_mem _ he

/-- Claim C4: after list_del of a linked node n with former neighbors
a = n.prev and b = n.next, the two former neighbors are directly adjacent,
and a forward traversal that previously visited L entries now visits
exactly L - 1 entries. -/
theorem C4_del_adjacency_and_length (h : Heap) (hd n a b : Nat)
    (l1 l2 : List Nat) (hr : isRing h (hd :: (l1 ++ n :: l2)))
    (ha : (h n).prev = Ptr.node a) (hb : (h n).next = Ptr.node b) :
    ∃ h', list_del h (Ptr.node n) = some h' ∧
      (h' a).next = Ptr.node b ∧ (h' b).prev = Ptr.node a ∧
      traverseFwd ((l1 ++ n :: l2).length + 1) h (Ptr.node hd) ((h hd).next)
        = some ((l1 ++ n :: l2).map Ptr.node) ∧
      traverseFwd ((l1 ++ l2).length + 1) h' (Ptr.node hd) ((h' hd).next)
        = some ((l1 ++ l2).map Ptr.node) ∧
      (l1 ++ l2).length = (l1 ++ n :: l2).length - 1 := by
  have hbefore := traverseFwd_ring h hd (l1 ++ n :: l2) hr
  have hrot : isRing h (n :: (l2 ++ hd :: l1)) := by
    have h0 : isRing h ((hd :: l1) ++ (n :: l2)) := by simpa using hr
    simpa using isRing_append_comm h (hd :: l1) (n :: l2) h0
  obtain ⟨a', b', ha', hb', h', heq, hring, hanext, hbprev⟩ :=
    del_ring_rot h n (l2 ++ hd :: l1) (by simp) hrot
  have haa : a = a' := Ptr.node.inj (ha.symm.trans ha')
  have hbb : b = b' := Ptr.node.inj (hb.symm.trans hb')
  subst haa
  subst hbb
  have hback : isRing h' (hd :: (l1 ++ l2)) := by
    simpa using isRing_append_comm h' l2 (hd :: l1) hring
  have hafter := traverseFwd_ring h' hd (l1 ++ l2) hback
  refine ⟨h', heq, hanext, hbprev, hbefore, hafter, ?_⟩
  simp only [List.length_append, List.length_cons]
  omega

/-- Claim C5: after list_replace of a linked node old by a fresh node new
the forward traversal from the head is the previous traversal with old
replaced by new at the same ordinal position, and after list_replace_init
the node old additionally satisfies the isolated-ring shape
old.next == old.prev == old. -/
theorem C5_replace_same_position (h : Heap) (hd o nw : Nat) (l1 l2 : List Nat)
    (hr : isRing h (hd :: (l1 ++ o :: l2))) (hnw : nw ∉ hd :: (l1 ++ o :: l2)) :
    traverseFwd ((l1 ++ o :: l2).length + 1) h (Ptr.node hd) ((h hd).next)
      = some ((l1 ++ o :: l2).map Ptr.node) ∧
    (∃ h', list_replace h (Ptr.node o) (Ptr.node nw) = some h' ∧
      traverseFwd ((l1 ++ nw :: l2).length + 1) h' (Ptr.node hd) ((h' hd).next)
        = some ((l1 ++ nw :: l2).map Ptr.node)) ∧
    (∃ h'', list_replace_init h (Ptr.node o) (Ptr.node nw) = some h'' ∧
      traverseFwd ((l1 ++ nw :: l2).length + 1) h'' (Ptr.node hd) ((h'' hd).next)
        = some ((l1 ++ nw :: l2).map Ptr.node) ∧
      (h'' o).next = Ptr.node o ∧ (h'' o).prev = Ptr.node o) := by
  have hbefore := traverseFwd_ring h hd (l1 ++ o :: l2) hr
  have hrot : isRing h (o :: (l2 ++ hd :: l1)) := by
    have h0 : isRing h ((hd :: l1) ++ (o :: l2)) := by simpa using hr
    simpa using isRing_append_comm h (hd :: l1) (o :: l2) h0
  have hnwrot : nw ∉ o :: (l2 ++ hd :: l1) := by
    simp only [List.mem_cons, List.mem_append] at hnw ⊢
    tauto
  refine ⟨hbefore, ?_, ?_⟩
  · obtain ⟨h', heq, hring⟩ := replace_ring h o nw (l2 ++ hd :: l1) hrot hnwrot
    have hback : isRing h' (hd :: (l1 ++ nw :: l2)) := by
      have h1 : isRing h' ((nw :: l2) ++ (hd :: l1)) := by simpa using hring
      simpa using isRing_append_comm h' (nw :: l2) (hd :: l1) h1
    exact ⟨h', heq, traverseFwd_ring h' hd (l1 ++ nw :: l2) hback⟩
  · obtain ⟨h'', heq, hring, hn2, hp2⟩ :=
      replace_init_ring h o nw (l2 ++ hd :: l1) hrot hnwrot
    have hback : isRing h'' (hd :: (l1 ++ nw :: l2)) := by
      have h1 : isRing h'' ((nw :: l2) ++ (hd :: l1)) := by simpa using hring
      simpa using isRing_append_comm h'' (nw :: l2) (hd :: l1) h1
    exact ⟨h'', heq, traverseFwd_ring h'' hd (l1 ++ nw :: l2) hback, hn2, hp2⟩

/-- Claim C6: for any well-formed ring and fresh node n, immediately after
list_add the head links forward to n, and immediately after list_add_tail
the head links backward to n. -/
theorem C6_add_front_back (h : Heap) (hd n : Nat) (es : List Nat)
    (hr : isRing h (hd :: es)) (hn : n ∉ hd :: es) :
    (∃ h', list_add h (Ptr.node n) (Ptr.node hd) = some h' ∧
      (h' hd).next = Ptr.node n) ∧
    (∃ h', list_add_tail h (Ptr.node n) (Ptr.node hd) = some h' ∧
      (h' hd).prev = Ptr.node n) := by
  constructor
  · obtain ⟨h', heq, hring⟩ := add_ring h hd n es hr hn
    refine ⟨h', heq, ?_⟩
    obtain ⟨-, -, hds⟩ := hring
    rw [dseg_cons] at hds
    exact hds.2.1
  · obtain ⟨h', heq, hring⟩ := add_tail_ring h hd n es hr hn
    refine ⟨h', heq, ?_⟩
    obtain ⟨-, -, hds⟩ := hring
    rw [dseg_cons, lastP_eq_lastN, lastN_append_singleton] at hds
    exact hds.1

/-- Claim C7: starting from an isolated head ring of size one, adding a
fresh node with list_add_tail and then removing it with list_del restores
head.next == head.prev == head, the empty list. -/
theorem C7_add_back_remove_roundtrip (h : Heap) (hd n : Nat)
    (hiso : (h hd).next = Ptr.node hd ∧ (h hd).prev = Ptr.node hd)
    (hn : n ≠ hd) :
    ∃ h1 h2, list_add_tail h (Ptr.node n) (Ptr.node hd) = some h1 ∧
      list_del h1 (Ptr.node n) = some h2 ∧
      (h2 hd).next = Ptr.node hd ∧ (h2 hd).prev = Ptr.node hd := by
  have hr : isRing h [hd] := (isRing_singleton h hd).mpr hiso
  obtain ⟨h1, heq1, hring1⟩ := add_tail_ring h hd n [] hr (by simp [hn])
  have h01 : isRing h1 ([hd] ++ [n]) := by simpa using hring1
  have hring1' : isRing h1 (n :: hd :: []) := by
    simpa using isRing_append_comm h1 [hd] [n] h01
  obtain ⟨-, -, h2, heq2, hring2, -, -, -, -, -, -⟩ := del_ring h1 n hd [] hring1'
  exact ⟨h1, h2, heq1, heq2, ((isRing_singleton h2 hd).mp hring2).1,
    ((isRing_singleton h2 hd).mp hring2).2⟩

/-- Claim C8: recovering the entry address from the address of its embedded
link member at byte offset k, then recomputing the address of the link
member from the recovered entry address, returns the original link address;
this is pure address arithmetic with no dereference. -/
theorem C8_container_of_roundtrip (base k : Nat) :
    container_of (member_addr base k) k = base ∧
    list_entry (member_addr base k) k = base ∧
    member_addr (container_of (member_addr base k) k) k = member_addr base k := by
  refine ⟨?_, ?_, ?_⟩ <;> simp [container_of, list_entry, member_addr]

/-- Claim C9, counterexample: in the two-cell ring of cells 0 and 1, the
former predecessor and successor of node 1 are both cell 0; list_del of
node 1 changes the prev field of that predecessor from node 1 to node 0,
so the prev field of the predecessor is not unchanged as the claim
states. -/
theorem C9_frame_counterexample :
    (exH2 0).prev = Ptr.node 1 ∧
    delCell exH2 (Ptr.node 1) 0 = some { next := Ptr.node 0, prev := Ptr.node 0 } ∧
    Ptr.node 0 ≠ Ptr.node 1 :=
  ⟨rfl, rfl, by decide⟩

/-- Claim C9, amended: provided the former predecessor and the former
successor of n are distinct links (ring of at least three links), list_del
of n modifies only three cells, n itself with both fields poisoned, the
next field of the predecessor and the prev field of the successor; the
prev field of the predecessor, the next field of the successor and both
fields of every other cell are unchanged. When predecessor and successor
coincide, both fields of that single neighbor change. -/
theorem C9_del_frame (h : Heap) (n m : Nat) (l' : List Nat)
    (hr : isRing h (n :: m :: l')) (hne : lastN m l' ≠ m) :
    ∃ h', list_del h (Ptr.node n) = some h' ∧
      (h n).prev = Ptr.node (lastN m l') ∧ (h n).next = Ptr.node m ∧
      (h' n).next = LIST_POISON1 ∧ (h' n).prev = LIST_POISON2 ∧
      (h' (lastN m l')).next = Ptr.node m ∧
      (h' (lastN m l')).prev = (h (lastN m l')).prev ∧
      (h' m).prev = Ptr.node (lastN m l') ∧
      (h' m).next = (h m).next ∧
      (∀ x, x ≠ n → x ≠ m → x ≠ lastN m l' → h' x = h x) := by
  obtain ⟨hp, hnx, h', heq, -, hp1, hp2, hanext, hmprev, hframe, hcond⟩ :=
    del_ring h n m l' hr
  obtain ⟨hc1, hc2⟩ := hcond hne
  exact ⟨h', heq, hp, hnx, hp1, hp2, hanext, hc1, hmprev, hc2, hframe⟩

/-- Claim C10: list_replace of an isolated node old by a distinct node new
leaves new isolated as well, new.next == new.prev == new, because of the
order of the four pointer writes; replacing an empty head transfers
emptiness to the replacement. -/
theorem C10_replace_isolated (h : Heap) (o nw : Nat)
    (hiso : (h o).next = Ptr.node o ∧ (h o).prev = Ptr.node o)
    (hne : nw ≠ o) :
    ∃ h', list_replace h (Ptr.node o) (Ptr.node nw) = some h' ∧
      (h' nw).next = Ptr.node nw ∧ (h' nw).prev = Ptr.node nw := by
  have hr : isRing h [o] := (isRing_singleton h o).mpr hiso
  obtain ⟨h', heq, hring⟩ := replace_ring h o nw [] hr (by simp [hne])
  exact ⟨h', heq, ((isRing_singleton h' nw).mp hring).1,
    ((isRing_singleton h' nw).mp hring).2⟩

/-!
Witnesses: each theorem with hypotheses applied at a concrete input.
-/

theorem C1_invariant_preserved_witness :
    (∃ h', INIT_LIST_HEAD exH1 (Ptr.node 5) = some h' ∧
      ∀ x ∈ [5], nodeInv h' x) ∧
    (∃ h', list_add exH2 (Ptr.node 2) (Ptr.node 0) = some h' ∧
      ∀ x ∈ [0, 2, 1], nodeInv h' x) ∧
    (∃ h', list_add_tail exH2 (Ptr.node 2) (Ptr.node 0) = some h' ∧
      ∀ x ∈ [0, 1, 2], nodeInv h' x) ∧
    (∃ h', list_del exH2 (Ptr.node 0) = some h' ∧ ∀ x ∈ [1], nodeInv h' x) ∧
    (∃ h', list_replace exH2 (Ptr.node 0) (Ptr.node 2) = some h' ∧
      ∀ x ∈ [2, 1], nodeInv h' x) ∧
    (∃ h', list_replace_init exH2 (Ptr.node 0) (Ptr.node 2) = some h' ∧
      (∀ x ∈ [2, 1], nodeInv h' x) ∧ nodeInv h' 0) :=
  ⟨C1_invariant_preserved.1 exH1 5,
   C1_invariant_preserved.2.1 exH2 0 2 [1] exH2_ring (by decide),
   C1_invariant_preserved.2.2.1 exH2 0 2 [1] exH2_ring (by decide),
   C1_invariant_preserved.2.2.2.1 exH2 0 [1] exH2_ring (by decide),
   C1_invariant_preserved.2.2.2.2.1 exH2 0 2 [1] exH2_ring (by decide),
   C1_invariant_preserved.2.2.2.2.2 exH2 0 2 [1] exH2_ring (by decide)⟩

theorem C2_poison_amended_witness :
    ∃ h', list_del exH2 (Ptr.node 1) = some h' ∧
      (h' 1).next = LIST_POISON1 ∧ (h' 1).prev = LIST_POISON2 ∧
      LIST_POISON1 = Ptr.null ∧ LIST_POISON2 = Ptr.null :=
  C2_poison_amended exH2 [0, 1] 1 exH2_ring (by decide)

theorem C3_safe_del_traversal_witness :
    ∃ hf, safeDelAll 3 exH3 (Ptr.node 0)
        = some ([1, 2].map Ptr.node, hf) ∧
      ([1, 2].map Ptr.node).length = [1, 2].length ∧
      ([1, 2].map Ptr.node).Nodup ∧
      (∀ e ∈ [1, 2], Ptr.node e ∈ [1, 2].map Ptr.node) ∧
      (hf 0).next = Ptr.node 0 ∧ (hf 0).prev = Ptr.node 0 :=
  C3_safe_del_traversal exH3 0 [1, 2] exH3_ring

theorem C4_del_adjacency_and_length_witness :
    ∃ h', list_del exH3 (Ptr.node 1) = some h' ∧
      (h' 0).next = Ptr.node 2 ∧ (h' 2).prev = Ptr.node 0 ∧
      traverseFwd 3 exH3 (Ptr.node 0) ((exH3 0).next)
        = some ([1, 2].map Ptr.node) ∧
      traverseFwd 2 h' (Ptr.node 0) ((h' 0).next) = some ([2].map Ptr.node) ∧
      ([] ++ [2] : List Nat).length = ([] ++ 1 :: [2] : List Nat).length - 1 :=
  C4_del_adjacency_and_length exH3 0 1 0 2 [] [2] exH3_ring (by decide) (by decide)

theorem C5_replace_same_position_witness :
    traverseFwd 3 exH3 (Ptr.node 0) ((exH3 0).next)
      = some ([1, 2].map Ptr.node) ∧
    (∃ h', list_replace exH3 (Ptr.node 1) (Ptr.node 5) = some h' ∧
      traverseFwd 3 h' (Ptr.node 0) ((h' 0).next)
        = some ([5, 2].map Ptr.node)) ∧
    (∃ h'', list_replace_init exH3 (Ptr.node 1) (Ptr.node 5) = some h'' ∧
      traverseFwd 3 h'' (Ptr.node 0) ((h'' 0).next)
        = some ([5, 2].map Ptr.node) ∧
      (h'' 1).next = Ptr.node 1 ∧ (h'' 1).prev = Ptr.node 1) :=
  C5_replace_same_position exH3 0 1 5 [] [2] exH3_ring (by decide)

theorem C6_add_front_back_witness :
    (∃ h', list_add exH2 (Ptr.node 2) (Ptr.node 0) = some h' ∧
      (h' 0).next = Ptr.node 2) ∧
    (∃ h', list_add_tail exH2 (Ptr.node 2) (Ptr.node 0) = some h' ∧
      (h' 0).prev = Ptr.node 2) :=
  C6_add_front_back exH2 0 2 [1] exH2_ring (by decide)

theorem C7_add_back_remove_roundtrip_witness :
    ∃ h1 h2, list_add_tail exH1 (Ptr.node 1) (Ptr.node 0) = some h1 ∧
      list_del h1 (Ptr.node 1) = some h2 ∧
      (h2 0).next = Ptr.node 0 ∧ (h2 0).prev = Ptr.node 0 :=
  C7_add_back_remove_roundtrip exH1 0 1 (by constructor <;> rfl) (by decide)

theorem C9_del_frame_witness :
    ∃ h', list_del exH3 (Ptr.node 0) = some h' ∧
      (exH3 0).prev = Ptr.node (lastN 1 [2]) ∧ (exH3 0).next = Ptr.node 1 ∧
      (h' 0).next = LIST_POISON1 ∧ (h' 0).prev = LIST_POISON2 ∧
      (h' (lastN 1 [2])).next = Ptr.node 1 ∧
      (h' (lastN 1 [2])).prev = (exH3 (lastN 1 [2])).prev ∧
      (h' 1).prev = Ptr.node (lastN 1 [2]) ∧
      (h' 1).next = (exH3 1).next ∧
      (∀ x, x ≠ 0 → x ≠ 1 → x ≠ lastN 1 [2] → h' x = exH3 x) :=
  C9_del_frame exH3 0 1 [2] exH3_ring (by decide)

theorem C10_replace_isolated_witness :
    ∃ h', list_replace exH1 (Ptr.node 0) (Ptr.node 3) = some h' ∧
      (h' 3).next = Ptr.node 3 ∧ (h' 3).prev = Ptr.node 3 :=
  C10_replace_isolated exH1 0 3 (by constructor <;> rfl) (by decide)

end KernelList
